import Mathlib

/-!
Verification development for the nnsight-mambainterp repository.

Part A embeds the run machinery of `src/nnsight/models/AbstractModel.py`
(`AbstractModel.__init__`, `AbstractModel.__call__`, `AbstractModel.modulize`)
as an explicit state-and-event-trace semantics.  Python `with` blocks are
modelled by emitting the context manager's exit effects on every exit path of
the block's body (normal and exceptional), exactly as CPython guarantees.
`Editor`, `HookModel`, `Patcher` and `_register_increment_hook` are not part of
the two source files under inspection; their enter/exit effects are modelled
from the spec's contracts and are marked as such in their doc comments.

Part B embeds the numeric recurrence of `SSM.forward` from
`src/nnsight/models/Mamba.py` over idealized scalars (Gaussian rationals, with
the torch kernels `torch.exp`, `F.silu` and the dtype casts taken as abstract
scalar functions), plus the monkey-patch lifecycle of `Mamba._scan` and
`MambaInterp.__init__`.
-/

namespace NNSight

/-- An edit inserting a wrapper module: `WrapperModuleEdit(module_path, module_name)`.
The wrapper is installed at dotted path `module_path ++ "." ++ module_name`
(that dotted path is recorded in `wrapper_path`, mirroring
`wme.wrapper.module_path = f"{module.module_path}.{module_name}"`). -/
structure WrapperModuleEditE where
  module_path : String
  module_name : String
  wrapper_path : String
deriving DecidableEq, Repr

/-- A node of a per-module execution graph: a name, a target (dotted module
path or operation), and the names of the argument nodes it references. -/
structure GraphNodeE where
  name : String
  target : String
  args : List String
deriving DecidableEq, Repr

/-- A per-module execution graph: the ordered node list. -/
structure GraphE where
  nodes : List GraphNodeE
deriving DecidableEq, Repr

/-- An edit replacing the execution graph stored for module `module_path`:
`GraphEdit(module.module_path, module.graph)`. -/
structure GraphEditE where
  module_path : String
  graph : GraphE
deriving DecidableEq, Repr

/-- An `Edit` as stored in `AbstractModel.edits`: either a wrapper-module edit
or a graph edit. -/
inductive EditE where
  | wme (w : WrapperModuleEditE)
  | ge (g : GraphEditE)
deriving DecidableEq, Repr

/-- Events emitted by the embedded semantics of `AbstractModel`, in program
order.  `runFn` records the ambient `torch.inference_mode` flag and the
(opaque) inputs, extra positional arguments and keyword arguments that the
user function is invoked with. -/
inductive Event where
  | runMeta
  | loadLocal
  | freezeParams
  | applyEdits (es : List EditE)
  | revertEdits
  | compile
  | registerIncrementHook
  | installHooks (paths : List String)
  | removeHooks
  | setEval
  | setTrain
  | runFn (inferenceMode : Bool) (inputs extra kw : Nat)
  | removeIncrementHook
deriving DecidableEq, Repr

/-- State of an `AbstractModel` instance: the fields of the Python object that
the claims are about.  `localModel` holds an opaque identity token for the
`local_model` object (`none` = the Python `None`); `loadCount` counts how many
times `_load_local` has run; `paramsFrozenByCall` records whether `__call__`
has set `requires_grad = False` on the local model's parameters;
`metaModulePaths` and `moduleGraphs` model the meta model's module topology
and per-module graphs (what `modulize` mutates). -/
structure ModelE where
  dispatched : Bool
  custom_model : Bool
  localModel : Option Nat
  loadCount : Nat
  paramsFrozenByCall : Bool
  edits : List EditE
  metaModulePaths : List String
  moduleGraphs : List (String × GraphE)
deriving DecidableEq, Repr

/-- Embedding of `AbstractModel.__init__`.  `custom` is `some i` when the
constructor argument is an already-built `torch.nn.Module` with object
identity token `i` (the `isinstance(repoid_path_model, torch.nn.Module)`
branch), `none` when it is a repo id / path.  The custom branch sets
`custom_model = True`, `dispatched = True` and `local_model = repoid_path_model`;
both branches end by running the meta trace once (`self._run_meta("_")`). -/
def initModel (custom : Option Nat) : ModelE × List Event :=
  match custom with
  | some i =>
      ({ dispatched := true, custom_model := true, localModel := some i,
         loadCount := 0, paramsFrozenByCall := false, edits := [],
         metaModulePaths := [], moduleGraphs := [] }, [Event.runMeta])
  | none =>
      ({ dispatched := false, custom_model := false, localModel := none,
         loadCount := 0, paramsFrozenByCall := false, edits := [],
         metaModulePaths := [], moduleGraphs := [] }, [Event.runMeta])

/-- Per-run parameters of `AbstractModel.__call__` together with the
environment facts that determine its control flow: whether `graph.compile`
raises and whether the user function `fn` raises. -/
structure CallCfg where
  editsArg : Option (List EditE)
  inference : Bool
  inputs : Nat
  extra : Nat
  kw : Nat
  argumentNodeNames : List String
  compileFails : Bool
  fnFails : Bool
deriving DecidableEq, Repr

/-- Embedding of `".".join(name.split(".")[:-2])`: drop the last two
dot-separated components of a dotted name and rejoin. -/
def dropLastTwo (name : String) : String :=
  String.intercalate "." (((name.splitOn ".").dropLast).dropLast)

/-- Embedding of the module-path computation in `AbstractModel.__call__`:
`set(".".join(name.split(".")[:-2]) for name in graph.argument_node_names.keys())`,
as a deduplicated list (Python `set` semantics up to element order). -/
def hookModules (keys : List String) : List String :=
  (keys.map dropLastTwo).dedup

/-- Result of one embedded `__call__`: the updated model state, the emitted
event trace, and whether the call returned normally (`ok = true`) or
propagated an exception. -/
structure CallResult where
  model : ModelE
  events : List Event
  ok : Bool
deriving DecidableEq, Repr

/-- Embedding of `AbstractModel.__call__`, line by line:
`edits = self.edits` when the argument is `None`; lazy
`_load_local` + parameter freezing when `not self.dispatched` (the source
never sets `self.dispatched` afterwards); then `with Editor(self, edits)`
(apply edits on enter, revert on exit — `Editor` is modelled from the spec:
"apply at entry, revert at exit, even on failure"); inside it
`graph.compile(self.local_model)`, `self._register_increment_hook(...)`,
the hooked-module-path computation, `eval()/train()`,
`with torch.inference_mode(mode=inference)`, `with HookModel(...)` around
`fn(inputs, *args, **kwargs)` (`HookModel` is modelled from the spec:
installs input/output hooks on exactly the given module paths on enter,
removes them on exit even on failure), and finally `increment_hook.remove()`
— which in the source is a plain statement executed only when the preceding
`with` blocks complete without an exception. -/
def callModel (m : ModelE) (cfg : CallCfg) : CallResult :=
  let edits := cfg.editsArg.getD m.edits
  let m1 :=
    if !m.dispatched then
      { m with localModel := some (1000 + m.loadCount),
               loadCount := m.loadCount + 1,
               paramsFrozenByCall := true }
    else m
  let ev1 : List Event :=
    if !m.dispatched then [Event.loadLocal, Event.freezeParams] else []
  if cfg.compileFails then
    { model := m1,
      events := ev1 ++ [Event.applyEdits edits, Event.compile, Event.revertEdits],
      ok := false }
  else
    let modulesList := hookModules cfg.argumentNodeNames
    let modeEv : Event := if cfg.inference then Event.setEval else Event.setTrain
    if cfg.fnFails then
      { model := m1,
        events := ev1 ++ [Event.applyEdits edits, Event.compile,
          Event.registerIncrementHook, modeEv,
          Event.installHooks modulesList,
          Event.runFn cfg.inference cfg.inputs cfg.extra cfg.kw,
          Event.removeHooks, Event.revertEdits],
        ok := false }
    else
      { model := m1,
        events := ev1 ++ [Event.applyEdits edits, Event.compile,
          Event.registerIncrementHook, modeEv,
          Event.installHooks modulesList,
          Event.runFn cfg.inference cfg.inputs cfg.extra cfg.kw,
          Event.removeHooks, Event.removeIncrementHook, Event.revertEdits],
        ok := true }

/-- Resources held for a run: whether the edits are currently applied to the
local model, whether the input/output hooks are installed, and whether the
increment hook is registered. -/
structure Resources where
  editsApplied : Bool
  ioHooks : Bool
  incHook : Bool
deriving DecidableEq, Repr

/-- Effect of one event on the held resources. -/
def stepRes (s : Resources) : Event → Resources
  | Event.applyEdits _ => { s with editsApplied := true }
  | Event.revertEdits => { s with editsApplied := false }
  | Event.installHooks _ => { s with ioHooks := true }
  | Event.removeHooks => { s with ioHooks := false }
  | Event.registerIncrementHook => { s with incHook := true }
  | Event.removeIncrementHook => { s with incHook := false }
  | _ => s

/-- Resources still held after a trace, starting from the pre-run state
(nothing held). -/
def finalRes (evs : List Event) : Resources :=
  evs.foldl stepRes ⟨false, false, false⟩

/-- Application of an edit to the meta model's structure.  A
`WrapperModuleEdit` adds the wrapper module at its dotted path; a `GraphEdit`
installs the edited graph for its module path. -/
def applyEditMeta (m : ModelE) : EditE → ModelE
  | EditE.wme w => { m with metaModulePaths := m.metaModulePaths ++ [w.wrapper_path] }
  | EditE.ge g =>
      { m with moduleGraphs :=
          (m.moduleGraphs.filter (fun p => p.1 ≠ g.module_path)) ++ [(g.module_path, g.graph)] }

/-- Graph currently stored for a module path on the meta model (an empty graph
when none is stored yet). -/
def lookupGraph (m : ModelE) (path : String) : GraphE :=
  ((m.moduleGraphs.filter (fun p => p.1 = path)).map (fun p => p.2)).getLastD ⟨[]⟩

/-- Modelled from the spec: the two nodes created by
`module_proxy = getattr(graph.module_proxy, module_name); module_proxy(graph.nodes[node_name])`
(`graph.module_proxy` synthesizes node-producing calls against a module path).
The first node fetches the wrapper module at `wrapperPath`; the second calls
it with the data of node `node_name`, routing that node's data through the
wrapper. -/
def routingNodes (wrapperPath node_name : String) : List GraphNodeE :=
  [⟨"fetch:" ++ wrapperPath, wrapperPath, []⟩,
   ⟨"call:" ++ wrapperPath, wrapperPath, [node_name]⟩]

/-- Embedding of `AbstractModel.modulize(module, node_name, module_name)`:
creates a `WrapperModuleEdit` whose wrapper lives at
`module.module_path + "." + module_name` and applies it to the meta model;
appends the two routing nodes to the module's graph; creates a `GraphEdit`
with that graph and applies it to the meta model; appends first the wrapper
edit and then the graph edit to `self.edits`. -/
def modulize (m : ModelE) (modulePath node_name module_name : String) : ModelE :=
  let wrapperPath := modulePath ++ "." ++ module_name
  let wme := EditE.wme ⟨modulePath, module_name, wrapperPath⟩
  let m1 := applyEditMeta m wme
  let g := lookupGraph m1 modulePath
  let g2 : GraphE := ⟨g.nodes ++ routingNodes wrapperPath node_name⟩
  let ge := EditE.ge ⟨modulePath, g2⟩
  let m2 := applyEditMeta m1 ge
  { m2 with edits := m2.edits ++ [wme, ge] }

/-- State of an intervention graph that the increment hook acts on: the
monotonic step counter plus an opaque field standing for all other graph
state (which the hook must not touch). -/
structure GraphStateE where
  counter : Nat
  otherState : Nat
deriving DecidableEq, Repr

/-- Embedding of `Graph.increment()`: advance the step counter by one. -/
def graphIncrement (g : GraphStateE) : GraphStateE :=
  { g with counter := g.counter + 1 }

/-- Embedding of the hook callback registered in `AbstractModel.__call__`:
`lambda module, input, output: graph.increment()` — it ignores the module,
input and output it is given and only increments the graph. -/
def incrementHookCallback (_module _input _output : Nat) (g : GraphStateE) : GraphStateE :=
  graphIncrement g

/-- Modelled from the spec: `_register_increment_hook` registers the callback
as a hook on the local model that fires once per full forward pass
("fires once per forward pass to advance the step counter").  Running `n`
forward passes therefore fires the callback `n` times. -/
def runForwardPasses (n : Nat) (g : GraphStateE) : GraphStateE :=
  match n with
  | 0 => g
  | k + 1 => incrementHookCallback 0 0 0 (runForwardPasses k g)

/-- Attribute sites that the monkey-patches in `Mamba.py` target:
`mamba_ssm.modules.mamba_simple.rms_norm_fn`,
`mamba_ssm.models.mixer_seq_simple.rms_norm_fn`,
`causal_conv1d_cuda.causal_conv1d_fwd`, `selective_scan_cuda.fwd`, and
`mamba_ssm.models.mixer_seq_simple.Mamba`. -/
inductive PatchSite where
  | mambaSimpleRmsNorm
  | mixerSeqRmsNorm
  | causalConv1dFwd
  | selectiveScanFwd
  | mixerSeqMamba
deriving DecidableEq, Repr

/-- Bindings currently installed at the five patched attribute sites, each
named by the function or class bound there. -/
structure PatchEnv where
  mambaSimpleRmsNorm : String
  mixerSeqRmsNorm : String
  causalConv1dFwd : String
  selectiveScanFwd : String
  mixerSeqMamba : String
deriving DecidableEq, Repr

/-- Binding currently installed at a site. -/
def getSite (env : PatchEnv) : PatchSite → String
  | PatchSite.mambaSimpleRmsNorm => env.mambaSimpleRmsNorm
  | PatchSite.mixerSeqRmsNorm => env.mixerSeqRmsNorm
  | PatchSite.causalConv1dFwd => env.causalConv1dFwd
  | PatchSite.selectiveScanFwd => env.selectiveScanFwd
  | PatchSite.mixerSeqMamba => env.mixerSeqMamba

/-- Overwrite the binding at a site. -/
def setSite (env : PatchEnv) : PatchSite → String → PatchEnv
  | PatchSite.mambaSimpleRmsNorm, v => { env with mambaSimpleRmsNorm := v }
  | PatchSite.mixerSeqRmsNorm, v => { env with mixerSeqRmsNorm := v }
  | PatchSite.causalConv1dFwd, v => { env with causalConv1dFwd := v }
  | PatchSite.selectiveScanFwd, v => { env with selectiveScanFwd := v }
  | PatchSite.mixerSeqMamba, v => { env with mixerSeqMamba := v }

/-- A `Patch(module, replacement, attribute)`: a site and the replacement
binding to install there. -/
structure PatchE where
  site : PatchSite
  repl : String
deriving DecidableEq, Repr

/-- State of a `Patcher`: the original bindings it has saved for restoration
on exit, in the order the patches were applied. -/
structure PatcherE where
  saved : List (PatchSite × String)
deriving DecidableEq, Repr

/-- Modelled from the spec: `Patcher.add` on an entered patcher installs the
patch immediately, saving the binding it overwrites so the patcher can
restore it ("a reversible substitution table applied via scoped acquisition").
Returns the updated environment and patcher. -/
def patcherAdd (env : PatchEnv) (pr : PatcherE) (p : PatchE) : PatchEnv × PatcherE :=
  (setSite env p.site p.repl, ⟨pr.saved ++ [(p.site, getSite env p.site)]⟩)

/-- Modelled from the spec: a `Patcher` context exit restores every saved
binding ("install on enter, restore on exit even on failure"), undoing the
patches in reverse order of application. -/
def patcherRestore (env : PatchEnv) (pr : PatcherE) : PatchEnv :=
  pr.saved.foldr (fun sv e => setSite e sv.1 sv.2) env

/-- Embedding of `Mamba._scan`: inside `with Patcher() as patcher`, four
patches are added (the two `rms_norm_fn` sites get `blah`/`blah1`,
`causal_conv1d_fwd` gets `blah2`, `selective_scan_cuda.fwd` gets `blah3`),
the meta model runs under the patched environment, and the `with` block exit
restores the saved bindings.  Returns the environment the meta model ran
under and the environment after `_scan` returns. -/
def scanRun (env : PatchEnv) : PatchEnv × PatchEnv :=
  let s0 : PatchEnv × PatcherE := (env, ⟨[]⟩)
  let s1 := patcherAdd s0.1 s0.2 ⟨PatchSite.mambaSimpleRmsNorm, "blah"⟩
  let s2 := patcherAdd s1.1 s1.2 ⟨PatchSite.mixerSeqRmsNorm, "blah1"⟩
  let s3 := patcherAdd s2.1 s2.2 ⟨PatchSite.causalConv1dFwd, "blah2"⟩
  let s4 := patcherAdd s3.1 s3.2 ⟨PatchSite.selectiveScanFwd, "blah3"⟩
  (s4.1, patcherRestore s4.1 s4.2)

/-- Embedding of `MambaInterp.__init__`: a fresh `Patcher` gets one patch
(substituting `MambaModuleInterp` for `mamba_ssm.models.mixer_seq_simple.Mamba`),
`patcher.__enter__()` installs it, and then `super().__init__(...)` runs —
which performs the meta load and the meta trace (`_run_meta` calls `_scan`)
under the patched environment.  No matching `__exit__` appears anywhere in
`MambaInterp.__init__`, so nothing restores the `Mamba` binding afterwards.
Returns the environment the construction (tracing) ran under and the
environment left in place after construction completes. -/
def mambaInterpInitRun (env : PatchEnv) : PatchEnv × PatchEnv :=
  let s1 := patcherAdd env ⟨[]⟩ ⟨PatchSite.mixerSeqMamba, "MambaModuleInterp"⟩
  let scanned := scanRun s1.1
  (scanned.1, scanned.2)

/-- The real bindings of the patched sites before any patching. -/
def origEnv : PatchEnv :=
  ⟨"rms_norm_fn", "rms_norm_fn", "causal_conv1d_fwd", "selective_scan_fwd", "Mamba"⟩

/-! ### Part B: the `SSM` recurrence of `Mamba.py`

Scalars are idealized as Gaussian rationals `GQ` (a real and an imaginary
rational part), which cover both the real-dtype and the complex-dtype paths
of `SSM.forward`.  The external torch kernels `torch.exp` and `F.silu`, and
the final `.to(dtype=dtype_in)` cast, are opaque numeric primitives excluded
from the core, so they enter the embedding as abstract scalar functions
`texp`, `tsilu`, `tcast`.  Tensors are total functions from (batch, channel,
position, state) indices to scalars; only indices inside the declared shape
are ever read. -/

/-- An idealized scalar: a complex number with rational real and imaginary
parts.  A real-dtype tensor entry has `im = 0`. -/
structure GQ where
  re : ℚ
  im : ℚ
deriving DecidableEq, Repr

/-- Scalar zero. -/
def GQ.zero : GQ := ⟨0, 0⟩

/-- Scalar addition. -/
def GQ.add (a b : GQ) : GQ := ⟨a.re + b.re, a.im + b.im⟩

/-- Scalar (complex) multiplication. -/
def GQ.mul (a b : GQ) : GQ := ⟨a.re * b.re - a.im * b.im, a.re * b.im + a.im * b.re⟩

/-- Embedding of `y.real * 2` for a complex scalar: twice the real part, as a
real-dtype scalar. -/
def GQ.twoRe (a : GQ) : GQ := ⟨2 * a.re, 0⟩

/-- Sum of `f 0, …, f (n-1)`, embedding the contraction over the state
dimension in `torch.einsum('bdn,bn->bd', h, C)`. -/
def sumN (n : Nat) (f : Nat → GQ) : GQ :=
  match n with
  | 0 => GQ.zero
  | k + 1 => (sumN k f).add (f k)

/-- A tensor indexed `(b, d, l)` or `(b, n, l)`. -/
abbrev Ten3 := Nat → Nat → Nat → GQ

/-- A tensor indexed `(b, d)` or `(b, n)`. -/
abbrev Ten2 := Nat → Nat → GQ

/-- The arguments of `SSM.forward(x, delta, A, B, C, D=None, z=None, …)`
after the dtype conversions at its top (`x.float()`, `delta.float()`, and the
`view_as_complex`/`float` conversion of `B` and `C`): `x`, `delta` are
`(batch, dim, L)`; `A` is `(dim, dstate)`; `B`, `C` are `(batch, dstate, L)`;
`Acomplex` records `A.is_complex()` (the dtype that propagates into `h` and
`y`); `D` is an optional `(dim)` tensor and `z` an optional `(batch, dim, L)`
tensor. -/
structure SSMIn where
  batch : Nat
  dim : Nat
  dstate : Nat
  L : Nat
  x : Ten3
  delta : Ten3
  A : Ten2
  Acomplex : Bool
  B : Ten3
  C : Ten3
  D : Option (Nat → GQ)
  z : Option Ten3

/-- Embedding of `SSM.DiscA.forward(delta, A)`:
`torch.exp(torch.einsum('bdl,dn->bdln', delta, A))`, indexed `(b, d, l, n)`. -/
def DiscAforward (texp : GQ → GQ) (delta : Ten3) (A : Ten2)
    (b d l n : Nat) : GQ :=
  texp ((delta b d l).mul (A d n))

/-- Embedding of `SSM.DiscB.forward(delta, B)`:
`torch.einsum('bdl,bnl->bdln', delta, B)`, indexed `(b, d, l, n)`. -/
def DiscBforward (delta B : Ten3) (b d l n : Nat) : GQ :=
  (delta b d l).mul (B b n l)

/-- Embedding of `SSM.Hx.forward(deltaA, deltaB, x, h)` on the per-token
slices: `deltaA * h + torch.einsum('bdn,bd->bdn', deltaB, x)`. -/
def Hxforward (deltaA deltaB : Ten3) (x : Ten2) (h : Ten3) : Ten3 :=
  fun b d n => ((deltaA b d n).mul (h b d n)).add ((deltaB b d n).mul (x b d))

/-- Embedding of `SSM.Yh.forward(h, C)` on the per-token slices:
`y = torch.einsum('bdn,bn->bd', h, C)`, followed by `y = y.real * 2` when `y`
is complex (its dtype is complex exactly when `A` is). -/
def Yhforward (dstate : Nat) (complexDtype : Bool) (h : Ten3) (C : Ten2) : Ten2 :=
  fun b d =>
    let y := sumN dstate (fun n => (h b d n).mul (C b n))
    if complexDtype then y.twoRe else y

/-- Slice `deltaA[:, :, t]` of `deltaA = self.discA(delta, A)`, indexed
`(b, d, n)`. -/
def deltaASlice (texp : GQ → GQ) (inp : SSMIn) (t : Nat) : Ten3 :=
  fun b d n => DiscAforward texp inp.delta inp.A b d t n

/-- Slice `deltaB[:, :, t]` of `deltaB = self.discB(delta, B)`, indexed
`(b, d, n)`. -/
def deltaBSlice (inp : SSMIn) (t : Nat) : Ten3 :=
  fun b d n => DiscBforward inp.delta inp.B b d t n

/-- One loop iteration's hidden-state update:
`h = self.hx(deltaA[:, :, token_idx], deltaB[:, :, token_idx], x[:, :, token_idx], h)`. -/
def hUpdate (texp : GQ → GQ) (inp : SSMIn) (t : Nat) (h : Ten3) : Ten3 :=
  Hxforward (deltaASlice texp inp t) (deltaBSlice inp t) (fun b d => inp.x b d t) h

/-- Embedding of the token loop of `SSM.forward`, processing the given token
indices in order with current hidden state `h` and current `last_state`
(`none` models the Python `None`).  Each iteration updates the hidden state
via `self.hx`, emits `y = self.yh(h, C[:, :, token_idx])`, and on the final
token index (`token_idx = x.shape[2] - 1`) records `last_state = h`.
Returns the emitted `ys` list and the final `last_state`. -/
def ssmGo (texp : GQ → GQ) (inp : SSMIn) :
    List Nat → Ten3 → Option Ten3 → List Ten2 × Option Ten3
  | [], _h, last => ([], last)
  | t :: ts, h, last =>
      let h2 := hUpdate texp inp t h
      let y := Yhforward inp.dstate inp.Acomplex h2 (fun b n => inp.C b n t)
      let last2 := if t = inp.L - 1 then some h2 else last
      let r := ssmGo texp inp ts h2 last2
      (y :: r.1, r.2)

/-- Result of `SSM.forward`: the output tensor `(batch, dim, L)` and, when
`return_last_state` was set, the final hidden state.  `lastState = none`
models returning the bare `out` (or a `None` last state). -/
structure SSMOut where
  out : Ten3
  lastState : Option Ten3

/-- Embedding of `SSM.forward`: run the token loop over `range(x.shape[2])`
from `h = A.new_zeros((batch, dim, dstate))`, stack the per-token outputs
along the last dimension, add the skip term `x * rearrange(D, "d -> d 1")`
when `D` is given, multiply by `F.silu(z)` when `z` is given, cast back to
the input dtype, and pair with `last_state` when `return_last_state`. -/
def SSMforward (texp tsilu tcast : GQ → GQ) (inp : SSMIn)
    (returnLastState : Bool) : SSMOut :=
  let r := ssmGo texp inp (List.range inp.L) (fun _ _ _ => GQ.zero) none
  let ystack : Ten3 := fun b d l => (r.1.getD l (fun _ _ => GQ.zero)) b d
  let out1 : Ten3 :=
    match inp.D with
    | none => ystack
    | some Dv => fun b d l => (ystack b d l).add ((inp.x b d l).mul (Dv d))
  let out2 : Ten3 :=
    match inp.z with
    | none => out1
    | some zv => fun b d l => (out1 b d l).mul (tsilu (zv b d l))
  let out3 : Ten3 := fun b d l => tcast (out2 b d l)
  { out := out3, lastState := if returnLastState then r.2 else none }

/-- Specification-side hidden state, following the claim's words:
`h_0 = 0` and
`h_t = deltaA[:, :, t] * h_(t-1) + einsum('bdn,bd->bdn', deltaB[:, :, t], x[:, :, t])`
with `deltaA = exp(einsum('bdl,dn->bdln', delta, A))` and
`deltaB = einsum('bdl,bnl->bdln', delta, B)`; `hSpec (t+1)` consumes token
`t`. -/
def hSpec (texp : GQ → GQ) (inp : SSMIn) : Nat → Ten3
  | 0 => fun _ _ _ => GQ.zero
  | t + 1 => fun b d n =>
      ((texp ((inp.delta b d t).mul (inp.A d n))).mul (hSpec texp inp t b d n)).add
        (((inp.delta b d t).mul (inp.B b n t)).mul (inp.x b d t))

/-- Specification-side per-token output, following the claim's words:
`y_t = einsum('bdn,bn->bd', h_t, C[:, :, t])`, taking `2 * real part` when
complex. -/
def ySpec (texp : GQ → GQ) (inp : SSMIn) (t : Nat) : Ten2 :=
  fun b d =>
    let s := sumN inp.dstate (fun n => (hSpec texp inp (t + 1) b d n).mul (inp.C b n t))
    if inp.Acomplex then s.twoRe else s

/-- Specification-side final output entry, following the claim's words: the
stacked `y`, plus the `D * x` skip term when `D` is given, times `silu(z)`
when `z` is given, cast back to the input dtype. -/
def outSpec (texp tsilu tcast : GQ → GQ) (inp : SSMIn) (b d l : Nat) : GQ :=
  let y := ySpec texp inp l b d
  let y1 :=
    match inp.D with
    | none => y
    | some Dv => y.add ((inp.x b d l).mul (Dv d))
  let y2 :=
    match inp.z with
    | none => y1
    | some zv => y1.mul (tsilu (zv b d l))
  tcast y2

/-- Whether an event installs the input/output hooks. -/
def isInstallHooks : Event → Bool
  | Event.installHooks _ => true
  | _ => false

/-- Whether an event runs the user function. -/
def isRunFn : Event → Bool
  | Event.runFn _ _ _ _ => true
  | _ => false

/-- Whether an event is the `graph.compile(self.local_model)` call. -/
def isCompile : Event → Bool
  | Event.compile => true
  | _ => false

/-- Whether a trace contains neither a hook installation nor a user-function
invocation. -/
def noHookOrFn (evs : List Event) : Bool :=
  evs.all (fun e => !(isInstallHooks e || isRunFn e))

/-- A concrete run configuration used to evaluate the embedding on explicit
inputs. -/
def cfg0 : CallCfg :=
  { editsArg := none, inference := true, inputs := 7, extra := 8, kw := 9,
    argumentNodeNames := ["layers.0.output.0", "layers.1.output.0"],
    compileFails := false, fnFails := false }

/-- A concrete run configuration whose user function raises. -/
def cfgFail : CallCfg :=
  { cfg0 with fnFails := true }

/-- A concrete `SSM.forward` input (one batch entry, one channel, one state
dimension, one token, real dtype, with `D` and `z` present) used to evaluate
the embedding on explicit data. -/
def inpW : SSMIn :=
  { batch := 1, dim := 1, dstate := 1, L := 1,
    x := fun _ _ _ => ⟨1, 0⟩, delta := fun _ _ _ => ⟨2, 0⟩,
    A := fun _ _ => ⟨3, 0⟩, Acomplex := false,
    B := fun _ _ _ => ⟨5, 0⟩, C := fun _ _ _ => ⟨7, 0⟩,
    D := some (fun _ => ⟨11, 0⟩), z := some (fun _ _ _ => ⟨13, 0⟩) }

/-- C1: on a run whose user function (or node evaluation inside it) raises,
the exceptional exit path reverts the applied edits and removes the
input/output hooks (the `Editor` and `HookModel` context managers exit), but
the increment hook registered via `_register_increment_hook` is NOT removed:
`increment_hook.remove()` is a plain statement after the `with` blocks and is
skipped when the exception propagates.  The final resource state is
`editsApplied = false`, `ioHooks = false`, `incHook = true`, contradicting
the claim that every acquired resource is released. -/
theorem failed_run_leaks_increment_hook (m : ModelE) (cfg : CallCfg)
    (hc : cfg.compileFails = false) (hf : cfg.fnFails = true) :
    finalRes (callModel m cfg).events = ⟨false, false, true⟩ := by
  cases hd : m.dispatched <;> cases hi : cfg.inference <;>
    simp [callModel, hd, hi, hc, hf, finalRes, stepRes]

/-- Witness for `failed_run_leaks_increment_hook` at a concrete model and
configuration. -/
theorem failed_run_leaks_increment_hook_witness :
    cfgFail.compileFails = false ∧ cfgFail.fnFails = true ∧
    finalRes (callModel (initModel none).1 cfgFail).events = ⟨false, false, true⟩ :=
  ⟨rfl, rfl, failed_run_leaks_increment_hook (initModel none).1 cfgFail rfl rfl⟩

/-- C2: the meta trace runs exactly once at construction, but the
META-TRACED→DISPATCHED transition does not behave as claimed: `__call__`
never sets `self.dispatched = True` after lazily loading the local model, so
the instance is still not dispatched after the first run and a second call to
`__call__` loads the local model again (`loadCount` reaches 2). -/
theorem second_call_reloads_local_model :
    (initModel none).2.count Event.runMeta = 1 ∧
    ((callModel (initModel none).1 cfg0).model.dispatched = false ∧
      Event.loadLocal ∈ (callModel (initModel none).1 cfg0).events) ∧
    (Event.loadLocal ∈
        (callModel (callModel (initModel none).1 cfg0).model cfg0).events ∧
      (callModel (callModel (initModel none).1 cfg0).model cfg0).model.loadCount = 2) := by
  decide

/-- C3 counterexample: after `MambaInterp.__init__` completes (tracing is
done), the binding at `mamba_ssm.models.mixer_seq_simple.Mamba` has not been
restored to its original value — the environment differs from the pre-init
one, so not every monkey-patch is restored once tracing completes. -/
theorem mamba_patch_not_restored_after_init :
    (mambaInterpInitRun origEnv).2 ≠ origEnv := by
  decide

/-- C3 amended: the four `_scan` patches are active exactly while the meta
model runs during tracing and are all restored when the `with Patcher()`
block exits, but the Mamba-class substitution installed in
`MambaInterp.__init__` (whose patcher is entered and never exited) persists
after construction: the post-construction environment is the original one
with only `mixerSeqMamba` rebound to `MambaModuleInterp`. -/
theorem scan_patches_scoped_and_mamba_substitution_persists (env : PatchEnv) :
    (scanRun env).1 =
      { env with mambaSimpleRmsNorm := "blah", mixerSeqRmsNorm := "blah1",
                 causalConv1dFwd := "blah2", selectiveScanFwd := "blah3" } ∧
    (scanRun env).2 = env ∧
    (mambaInterpInitRun env).1 =
      { env with mambaSimpleRmsNorm := "blah", mixerSeqRmsNorm := "blah1",
                 causalConv1dFwd := "blah2", selectiveScanFwd := "blah3",
                 mixerSeqMamba := "MambaModuleInterp" } ∧
    (mambaInterpInitRun env).2 = { env with mixerSeqMamba := "MambaModuleInterp" } :=
  ⟨rfl, rfl, rfl, rfl⟩

/-- C4: a run installs input/output hooks exactly once, on exactly the module
paths computed from the keys of `graph.argument_node_names` by dropping the
last two dot-separated components and deduplicating; membership in that path
set is exactly "some key maps to this path". -/
theorem hooks_installed_on_exact_planner_paths (m : ModelE) (cfg : CallCfg)
    (hc : cfg.compileFails = false) :
    (callModel m cfg).events.filter isInstallHooks =
      [Event.installHooks (hookModules cfg.argumentNodeNames)] ∧
    ∀ p, p ∈ hookModules cfg.argumentNodeNames ↔
      ∃ k ∈ cfg.argumentNodeNames, dropLastTwo k = p := by
  constructor
  · cases hd : m.dispatched <;> cases hi : cfg.inference <;> cases hf : cfg.fnFails <;>
      simp [callModel, hd, hi, hc, hf, isInstallHooks]
  · intro p
    simp [hookModules, List.mem_dedup, List.mem_map]

/-- Witness for `hooks_installed_on_exact_planner_paths` at a concrete model
and configuration. -/
theorem hooks_installed_on_exact_planner_paths_witness :
    cfg0.compileFails = false ∧
    ((callModel (initModel none).1 cfg0).events.filter isInstallHooks =
        [Event.installHooks (hookModules cfg0.argumentNodeNames)] ∧
      ∀ p, p ∈ hookModules cfg0.argumentNodeNames ↔
        ∃ k ∈ cfg0.argumentNodeNames, dropLastTwo k = p) :=
  ⟨rfl, hooks_installed_on_exact_planner_paths (initModel none).1 cfg0 rfl⟩

/-- C5: in every run, no hook installation and no user-function invocation
occurs before the `graph.compile(self.local_model)` call, and on a run whose
compilation fails the whole trace contains no hook installation and no
user-function invocation at all — the failure propagates before any real
forward pass. -/
theorem compile_precedes_hooks_and_fn (m : ModelE) (cfg : CallCfg) :
    noHookOrFn ((callModel m cfg).events.takeWhile (fun e => !isCompile e)) = true ∧
    (!cfg.compileFails || noHookOrFn (callModel m cfg).events) = true := by
  cases hd : m.dispatched <;> cases hi : cfg.inference <;>
    cases hc : cfg.compileFails <;> cases hf : cfg.fnFails <;>
      simp [callModel, hd, hi, hc, hf, noHookOrFn, isCompile, isInstallHooks, isRunFn,
        List.takeWhile]

/-- C6: `modulize` immediately installs the wrapper module at
`module.module_path ++ "." ++ module_name` on the meta model, immediately
extends the module's graph with the two nodes routing node `node_name`'s data
through the wrapper, appends the wrapper edit and then the graph edit to the
model's ordered edit list, and every subsequent run that does not pass an
explicit edit list applies exactly that stored list on entry and reverts it
on exit. -/
theorem modulize_edits_applied_and_recorded (m : ModelE) (mp nn mn : String) :
    (modulize m mp nn mn).metaModulePaths = m.metaModulePaths ++ [mp ++ "." ++ mn] ∧
    (lookupGraph (modulize m mp nn mn) mp).nodes =
      (lookupGraph m mp).nodes ++ routingNodes (mp ++ "." ++ mn) nn ∧
    (modulize m mp nn mn).edits =
      m.edits ++ [EditE.wme ⟨mp, mn, mp ++ "." ++ mn⟩,
        EditE.ge ⟨mp, ⟨(lookupGraph m mp).nodes ++ routingNodes (mp ++ "." ++ mn) nn⟩⟩] ∧
    (∀ cfg : CallCfg, cfg.editsArg = none →
      Event.applyEdits (modulize m mp nn mn).edits ∈
        (callModel (modulize m mp nn mn) cfg).events ∧
      Event.revertEdits ∈ (callModel (modulize m mp nn mn) cfg).events) := by
  refine ⟨rfl, ?_, rfl, ?_⟩
  · have h : (m.moduleGraphs.filter (fun p => p.1 ≠ mp)).filter (fun p => p.1 = mp) = [] := by
      induction m.moduleGraphs with
      | nil => rfl
      | cons a t ih => by_cases ha : a.1 = mp <;> simp [List.filter_cons, ha, ih]
    simp [modulize, applyEditMeta, lookupGraph, List.filter_append, h]
  · intro cfg h
    constructor <;>
      (cases hd : (modulize m mp nn mn).dispatched <;> cases hi : cfg.inference <;>
        cases hc : cfg.compileFails <;> cases hf : cfg.fnFails <;>
          simp [callModel, hd, hi, hc, hf, h])

/-- Witness for `modulize_edits_applied_and_recorded`: the apply/revert
conjunct at a concrete model, edit site and run configuration. -/
theorem modulize_edits_applied_and_recorded_witness :
    Event.applyEdits (modulize (initModel none).1 "backbone.layers.0" "node7" "wrap").edits ∈
      (callModel (modulize (initModel none).1 "backbone.layers.0" "node7" "wrap") cfg0).events ∧
    Event.revertEdits ∈
      (callModel (modulize (initModel none).1 "backbone.layers.0" "node7" "wrap") cfg0).events :=
  (modulize_edits_applied_and_recorded (initModel none).1
    "backbone.layers.0" "node7" "wrap").2.2.2 cfg0 rfl

/-- C7: a run that completes registers the increment hook exactly once and
removes it exactly once; the registered callback performs exactly
`graph.increment()` (the step counter advances by one, all other graph state
untouched), and since the hook fires once per full forward pass, `n` forward
passes advance the step counter by exactly `n`. -/
theorem increment_hook_once_and_removed (m : ModelE) (cfg : CallCfg)
    (hc : cfg.compileFails = false) (hf : cfg.fnFails = false) :
    ((callModel m cfg).events.count Event.registerIncrementHook = 1 ∧
      (callModel m cfg).events.count Event.removeIncrementHook = 1) ∧
    (∀ a b c g, incrementHookCallback a b c g = ⟨g.counter + 1, g.otherState⟩) ∧
    (∀ n g, (runForwardPasses n g).counter = g.counter + n ∧
      (runForwardPasses n g).otherState = g.otherState) := by
  refine ⟨?_, fun a b c g => rfl, fun n g => ?_⟩
  · cases hd : m.dispatched <;> cases hi : cfg.inference <;>
      simp [callModel, hd, hi, hc, hf, List.count_cons, List.count_nil]
  · induction n with
    | zero => exact ⟨rfl, rfl⟩
    | succ k ih =>
        constructor
        · have hstep : (runForwardPasses (k + 1) g).counter =
              (runForwardPasses k g).counter + 1 := rfl
          rw [hstep, ih.1]
          omega
        · have hstep : (runForwardPasses (k + 1) g).otherState =
              (runForwardPasses k g).otherState := rfl
          rw [hstep, ih.2]

/-- Witness for `increment_hook_once_and_removed` at a concrete model and
configuration. -/
theorem increment_hook_once_and_removed_witness :
    cfg0.compileFails = false ∧ cfg0.fnFails = false ∧
    (((callModel (initModel none).1 cfg0).events.count Event.registerIncrementHook = 1 ∧
        (callModel (initModel none).1 cfg0).events.count Event.removeIncrementHook = 1) ∧
      (∀ a b c g, incrementHookCallback a b c g = ⟨g.counter + 1, g.otherState⟩) ∧
      (∀ n g, (runForwardPasses n g).counter = g.counter + n ∧
        (runForwardPasses n g).otherState = g.otherState)) :=
  ⟨rfl, rfl, increment_hook_once_and_removed (initModel none).1 cfg0 rfl rfl⟩

/-- C8: with `inference = True` the local model is put in eval mode and the
user function runs with `torch.inference_mode` enabled; with
`inference = False` it is put in train mode and inference mode is disabled;
the extra positional and keyword arguments are forwarded unchanged to the
user function; and when the `edits` argument is `None` the model's own stored
edit list is the one applied. -/
theorem run_mode_and_argument_forwarding (m : ModelE) (cfg : CallCfg)
    (hc : cfg.compileFails = false) :
    Event.runFn cfg.inference cfg.inputs cfg.extra cfg.kw ∈ (callModel m cfg).events ∧
    (cfg.inference = true →
      Event.setEval ∈ (callModel m cfg).events ∧
      (callModel m cfg).events.count Event.setTrain = 0) ∧
    (cfg.inference = false →
      Event.setTrain ∈ (callModel m cfg).events ∧
      (callModel m cfg).events.count Event.setEval = 0) ∧
    (cfg.editsArg = none → Event.applyEdits m.edits ∈ (callModel m cfg).events) := by
  cases hd : m.dispatched <;> cases hi : cfg.inference <;> cases hf : cfg.fnFails <;>
    simp [callModel, hd, hi, hc, hf, List.count_cons, List.count_nil] <;>
      exact fun h => by simp [h]

/-- Witness for `run_mode_and_argument_forwarding` at a concrete model and
configuration. -/
theorem run_mode_and_argument_forwarding_witness :
    cfg0.compileFails = false ∧
    (Event.runFn cfg0.inference cfg0.inputs cfg0.extra cfg0.kw ∈
        (callModel (initModel none).1 cfg0).events ∧
      (cfg0.inference = true →
        Event.setEval ∈ (callModel (initModel none).1 cfg0).events ∧
        (callModel (initModel none).1 cfg0).events.count Event.setTrain = 0) ∧
      (cfg0.inference = false →
        Event.setTrain ∈ (callModel (initModel none).1 cfg0).events ∧
        (callModel (initModel none).1 cfg0).events.count Event.setEval = 0) ∧
      (cfg0.editsArg = none →
        Event.applyEdits (initModel none).1.edits ∈ (callModel (initModel none).1 cfg0).events)) :=
  ⟨rfl, run_mode_and_argument_forwarding (initModel none).1 cfg0 rfl⟩

/-- C9: a model built from an existing `torch.nn.Module` keeps that exact
object as `local_model`, starts dispatched, and no run ever loads a local
model or touches its parameters' `requires_grad` flags (the model state is
returned unchanged); a model built from a repo id loads lazily inside
`__call__` and freezes every parameter (`requires_grad = False`) before the
user function runs. -/
theorem custom_model_untouched_lazy_load_freezes :
    (∀ (i : Nat) (cfg : CallCfg),
      (initModel (some i)).1.dispatched = true ∧
      (initModel (some i)).1.localModel = some i ∧
      (callModel (initModel (some i)).1 cfg).model = (initModel (some i)).1 ∧
      (callModel (initModel (some i)).1 cfg).events.count Event.freezeParams = 0 ∧
      (callModel (initModel (some i)).1 cfg).events.count Event.loadLocal = 0) ∧
    (∀ cfg : CallCfg,
      (callModel (initModel none).1 cfg).model.paramsFrozenByCall = true ∧
      Event.freezeParams ∈
        ((callModel (initModel none).1 cfg).events.takeWhile (fun e => !isRunFn e))) := by
  constructor
  · intro i cfg
    cases hi : cfg.inference <;> cases hc : cfg.compileFails <;> cases hf : cfg.fnFails <;>
      simp [callModel, initModel, hi, hc, hf, List.count_cons, List.count_nil]
  · intro cfg
    cases hi : cfg.inference <;> cases hc : cfg.compileFails <;> cases hf : cfg.fnFails <;>
      simp [callModel, initModel, hi, hc, hf, List.takeWhile, isRunFn]

/-- Processing the token indices `s, s+1, …, s+k-1` starting from the
specification hidden state `h_s` emits exactly the specification outputs
`y_s, …, y_(s+k-1)`, for any incoming `last_state`. -/
theorem ssmGo_ys (texp : GQ → GQ) (inp : SSMIn) :
    ∀ (k s : Nat) (last0 : Option Ten3),
      (ssmGo texp inp (List.range' s k) (hSpec texp inp s) last0).1 =
        (List.range' s k).map (fun t => ySpec texp inp t) := by
  intro k
  induction k with
  | zero => intro s last0; rfl
  | succ n ih =>
      intro s last0
      have hstep : (ssmGo texp inp (List.range' s (n + 1)) (hSpec texp inp s) last0).1 =
          Yhforward inp.dstate inp.Acomplex (hSpec texp inp (s + 1)) (fun b nn => inp.C b nn s) ::
            (ssmGo texp inp (List.range' (s + 1) n) (hSpec texp inp (s + 1))
              (if s = inp.L - 1 then some (hSpec texp inp (s + 1)) else last0)).1 := rfl
      rw [hstep, ih (s + 1)]
      rfl

/-- Processing the token indices `s, …, s+k-1` with `s + k = L` and `k ≥ 1`
starting from the specification hidden state `h_s` ends with
`last_state = h_L`, the hidden state after the final token. -/
theorem ssmGo_last (texp : GQ → GQ) (inp : SSMIn) :
    ∀ (k s : Nat) (last0 : Option Ten3), 1 ≤ k → s + k = inp.L →
      (ssmGo texp inp (List.range' s k) (hSpec texp inp s) last0).2 =
        some (hSpec texp inp inp.L) := by
  intro k
  induction k with
  | zero => intro s last0 h1 _; omega
  | succ n ih =>
      intro s last0 _ hsum
      have hstep : (ssmGo texp inp (List.range' s (n + 1)) (hSpec texp inp s) last0).2 =
          (ssmGo texp inp (List.range' (s + 1) n) (hSpec texp inp (s + 1))
            (if s = inp.L - 1 then some (hSpec texp inp (s + 1)) else last0)).2 := rfl
      rw [hstep]
      rcases Nat.eq_zero_or_pos n with hn | hn
      · subst hn
        have hs : s = inp.L - 1 := by omega
        have hsL : s + 1 = inp.L := by omega
        show (if s = inp.L - 1 then some (hSpec texp inp (s + 1)) else last0) =
          some (hSpec texp inp inp.L)
        rw [if_pos hs, hsL]
      · exact ih (s + 1) _ hn (by omega)

/-- C10: for any input with at least one token, `SSM.forward` with
`return_last_state=True` produces at every in-range position the value of the
claim's closed-form recurrence — `h_0 = 0`,
`h_t = deltaA[:, :, t] * h_(t-1) + einsum('bdn,bd->bdn', deltaB[:, :, t], x[:, :, t])`,
`y_t = einsum('bdn,bn->bd', h_t, C[:, :, t])` (twice the real part when
complex), stacked, plus the `D * x` skip term when `D` is given, times
`silu(z)` when `z` is given, cast back to the input dtype — and pairs it with
`h_L`, the hidden state after the final token. -/
theorem SSM_forward_matches_recurrence (texp tsilu tcast : GQ → GQ) (inp : SSMIn)
    (hL : 1 ≤ inp.L) :
    (∀ b d l, l < inp.L →
      (SSMforward texp tsilu tcast inp true).out b d l =
        outSpec texp tsilu tcast inp b d l) ∧
    (SSMforward texp tsilu tcast inp true).lastState =
      some (hSpec texp inp inp.L) := by
  have h0 : (fun _ _ _ => GQ.zero : Ten3) = hSpec texp inp 0 := rfl
  have hys : (ssmGo texp inp (List.range inp.L) (fun _ _ _ => GQ.zero) none).1 =
      (List.range inp.L).map (fun t => ySpec texp inp t) := by
    rw [List.range_eq_range', h0, ssmGo_ys]
  have hlast : (ssmGo texp inp (List.range inp.L) (fun _ _ _ => GQ.zero) none).2 =
      some (hSpec texp inp inp.L) := by
    rw [List.range_eq_range', h0, ssmGo_last texp inp inp.L 0 none hL (by omega)]
  constructor
  · intro b d l hl
    have hy : (List.range inp.L)[l]? = some l := by
      simp [hl]
    cases hD : inp.D <;> cases hz : inp.z <;>
      simp [SSMforward, outSpec, hD, hz, hys, hy]
  · simp [SSMforward, hlast]

/-- Witness for `SSM_forward_matches_recurrence` at a concrete input with one
token, `D` and `z` present, and the opaque kernels instantiated with the
identity. -/
theorem SSM_forward_matches_recurrence_witness :
    (∀ b d l, l < inpW.L →
      (SSMforward id id id inpW true).out b d l = outSpec id id id inpW b d l) ∧
    (SSMforward id id id inpW true).lastState = some (hSpec id inpW inpW.L) :=
  SSM_forward_matches_recurrence id id id inpW (by decide)

end NNSight








